import Mathlib

/-!
Verification of the streaming relay in `pages/api/stream.ts` and the SSE
consumer in `pages/_app.tsx`.  Strings are modelled as `List Char`, raw
upstream chunks as `List Nat` (bytes), and the relay's read loop as a fold
over chunks carrying the frame buffer, the terminal flag and the emitted
events.
-/

namespace Relay

/-- Strings from the JS source are modelled as lists of characters. -/
abbrev Str := List Char

/-- JavaScript `String.prototype.trim` whitespace predicate (the whitespace
characters relevant to this code base). -/
def jsWS (c : Char) : Bool :=
  c = ' ' || c = '\t' || c = '\n' || c = '\r' || c = '\x0b' || c = '\x0c' ||
  c = ' ' || c = '﻿'

/-- Model of JavaScript `trim`: drop whitespace from both ends. -/
def jsTrim (s : Str) : Str :=
  ((s.dropWhile jsWS).reverse.dropWhile jsWS).reverse

/-- If `s = pat ++ rest`, return `some rest`, else `none`. -/
def matchAt : Str → Str → Option Str
  | [], s => some s
  | _ :: _, [] => none
  | p :: ps, c :: cs => if p = c then matchAt ps cs else none

/-- Leftmost occurrence search: model of the unanchored regex
`/data: ([\s\S]*)/` applied with pattern `pat`; returns the text after the
first occurrence of `pat`. -/
def findAfter (pat : Str) : Str → Option Str
  | [] => matchAt pat []
  | c :: cs =>
    match matchAt pat (c :: cs) with
    | some r => some r
    | none => findAfter pat cs

/-- Model of JavaScript `buffer.split("\n\n")`: leftmost, non-overlapping
scan for the two-newline separator. -/
def splitNN : Str → List Str
  | [] => [[]]
  | [c] => [[c]]
  | c :: d :: r =>
    if c = '\n' ∧ d = '\n' then [] :: splitNN r
    else
      match splitNN (d :: r) with
      | [] => [[c]]
      | s :: ss => (c :: s) :: ss

/-- Whether a text still contains a complete-frame separator (`"\n\n"`). -/
def hasNN : Str → Bool
  | [] => false
  | [_] => false
  | c :: d :: r => (c = '\n' && d = '\n') || hasNN (d :: r)

/-- Inverse of `splitNN`: interleave the parts with the separator. -/
def joinNN : List Str → Str
  | [] => []
  | [p] => p
  | p :: q :: ps => p ++ '\n' :: '\n' :: joinNN (q :: ps)

theorem splitNN_ne_nil (l : Str) : splitNN l ≠ [] := by
  match l with
  | [] => simp [splitNN]
  | [c] => simp [splitNN]
  | c :: d :: r =>
    rw [splitNN]
    split
    · simp
    · have h := splitNN_ne_nil (d :: r)
      match hs : splitNN (d :: r) with
      | [] => exact absurd hs h
      | s :: ss => simp

theorem joinNN_splitNN (l : Str) : joinNN (splitNN l) = l := by
  match l with
  | [] => simp [splitNN, joinNN]
  | [c] => simp [splitNN, joinNN]
  | c :: d :: r =>
    rw [splitNN]
    split
    · rename_i h
      obtain ⟨hc, hd⟩ := h
      subst hc; subst hd
      have ih := joinNN_splitNN r
      match hs : splitNN r with
      | [] => exact absurd hs (splitNN_ne_nil r)
      | s :: ss =>
        rw [hs] at ih
        simp [joinNN, ih]
    · have ih := joinNN_splitNN (d :: r)
      match hs : splitNN (d :: r) with
      | [] => exact absurd hs (splitNN_ne_nil (d :: r))
      | s :: ss =>
        rw [hs] at ih
        match ss with
        | [] => simp [joinNN] at ih ⊢; simp [ih]
        | t :: ts =>
          simp [joinNN] at ih ⊢
          simp [ih]

/-- All parts before the leftover tail of a parse pass (model of the frames
taken out of the buffer before `parts.pop()`). -/
def initP : List Str → List Str
  | [] => []
  | [_] => []
  | p :: q :: ps => p :: initP (q :: ps)

/-- The leftover tail of a parse pass (model of `parts.pop() || ""`). -/
def lastP : List Str → Str
  | [] => []
  | [p] => p
  | _ :: q :: ps => lastP (q :: ps)

theorem splitNN_cons_head (d : Char) (r : Str)
    (h : ∀ e r', r = e :: r' → ¬(d = '\n' ∧ e = '\n')) :
    ∃ s₀ ss, splitNN (d :: r) = (d :: s₀) :: ss := by
  match r with
  | [] => exact ⟨[], [], rfl⟩
  | e :: r' =>
    rw [splitNN]
    rw [if_neg (h e r' rfl)]
    have hne := splitNN_ne_nil (e :: r')
    match hs : splitNN (e :: r') with
    | [] => exact absurd hs hne
    | s :: ss => exact ⟨s, ss, rfl⟩

theorem splitNN_append (a b : Str) :
    splitNN (a ++ b) = initP (splitNN a) ++ splitNN (lastP (splitNN a) ++ b) := by
  match a with
  | [] => rfl
  | [c] => rfl
  | c :: d :: r =>
    by_cases hnn : c = '\n' ∧ d = '\n'
    · obtain ⟨hc, hd⟩ := hnn
      subst hc; subst hd
      have ih := splitNN_append r b
      have hne := splitNN_ne_nil r
      rw [List.cons_append, List.cons_append, splitNN, if_pos ⟨rfl, rfl⟩,
        splitNN, if_pos ⟨rfl, rfl⟩]
      match hs : splitNN r with
      | [] => exact absurd hs hne
      | s :: ss =>
        rw [hs] at ih
        rw [ih]
        rfl
    · have ih := splitNN_append (d :: r) b
      have hne := splitNN_ne_nil (d :: r)
      rw [List.cons_append, List.cons_append, splitNN, if_neg hnn,
        splitNN, if_neg hnn]
      rw [List.cons_append] at ih
      match hs : splitNN (d :: r) with
      | [] => exact absurd hs hne
      | [s] =>
        rw [hs] at ih
        have haux : ∀ e r', r = e :: r' → ¬(d = '\n' ∧ e = '\n') := by
          intro e r' hr hde
          obtain ⟨hd, he⟩ := hde
          subst hd; subst he; subst hr
          rw [splitNN, if_pos ⟨rfl, rfl⟩] at hs
          have := splitNN_ne_nil r'
          match hs2 : splitNN r' with
          | [] => exact this hs2
          | t :: ts => rw [hs2] at hs; simp at hs
        obtain ⟨s₀, ss₀, hhead⟩ := splitNN_cons_head d r haux
        rw [hs] at hhead
        injection hhead with h1 h2
        subst h1
        simp only [initP, lastP, List.nil_append] at ih
        rw [ih]
        simp only [initP, lastP, List.nil_append, List.cons_append]
        rw [splitNN, if_neg hnn]
      | s :: u :: us =>
        rw [hs] at ih
        rw [ih]
        simp only [initP, lastP, List.cons_append]

theorem hasNN_lastP_splitNN (l : Str) : hasNN (lastP (splitNN l)) = false := by
  match l with
  | [] => rfl
  | [c] => rfl
  | c :: d :: r =>
    by_cases hnn : c = '\n' ∧ d = '\n'
    · obtain ⟨hc, hd⟩ := hnn
      subst hc; subst hd
      have ih := hasNN_lastP_splitNN r
      rw [splitNN, if_pos ⟨rfl, rfl⟩]
      have hne := splitNN_ne_nil r
      match hs : splitNN r with
      | [] => exact absurd hs hne
      | s :: ss =>
        rw [hs] at ih
        exact ih
    · have ih := hasNN_lastP_splitNN (d :: r)
      rw [splitNN, if_neg hnn]
      have hne := splitNN_ne_nil (d :: r)
      match hs : splitNN (d :: r) with
      | [] => exact absurd hs hne
      | [s] =>
        rw [hs] at ih
        have haux : ∀ e r', r = e :: r' → ¬(d = '\n' ∧ e = '\n') := by
          intro e r' hr hde
          obtain ⟨hd, he⟩ := hde
          subst hd; subst he; subst hr
          rw [splitNN, if_pos ⟨rfl, rfl⟩] at hs
          have hne2 := splitNN_ne_nil r'
          match hs2 : splitNN r' with
          | [] => exact hne2 hs2
          | t :: ts => rw [hs2] at hs; simp at hs
        obtain ⟨s₀, ss₀, hhead⟩ := splitNN_cons_head d r haux
        rw [hs] at hhead
        injection hhead with h1 h2
        subst h1
        simp only [lastP] at ih ⊢
        rw [hasNN]
        simp only [ih, Bool.or_false]
        simp only [Bool.and_eq_false_imp, decide_eq_true_eq, decide_eq_false_iff_not]
        exact fun hc hd => hnn ⟨hc, hd⟩
      | s :: u :: us =>
        rw [hs] at ih
        simpa only [lastP] using ih

/-- JSON values as produced by `JSON.parse`.  Numbers keep their raw lexeme:
the relay never computes with them, it only needs parse success/failure and
truthiness. -/
inductive JVal where
  | null : JVal
  | bool : Bool → JVal
  | num : Str → JVal
  | str : Str → JVal
  | arr : List JVal → JVal
  | obj : List (Str × JVal) → JVal

/-- JSON insignificant whitespace. -/
def isJWs (c : Char) : Bool := c = ' ' || c = '\t' || c = '\n' || c = '\r'

def skipJWs (s : Str) : Str := s.dropWhile isJWs

def hexVal (c : Char) : Option Nat :=
  if '0' ≤ c ∧ c ≤ '9' then some (c.toNat - 48)
  else if 'a' ≤ c ∧ c ≤ 'f' then some (c.toNat - 87)
  else if 'A' ≤ c ∧ c ≤ 'F' then some (c.toNat - 55)
  else none

/-- Single-character JSON string escapes. -/
def escChar : Char → Option Char
  | '"' => some '"'
  | '\\' => some '\\'
  | '/' => some '/'
  | 'b' => some '\x08'
  | 'f' => some '\x0c'
  | 'n' => some '\n'
  | 'r' => some '\r'
  | 't' => some '\t'
  | _ => none

/-- Parse the body of a JSON string literal (after the opening quote). -/
def parseJStr : Str → Option (Str × Str)
  | [] => none
  | '"' :: r => some ([], r)
  | '\\' :: r =>
    match r with
    | 'u' :: h1 :: h2 :: h3 :: h4 :: r' =>
      match hexVal h1, hexVal h2, hexVal h3, hexVal h4 with
      | some a, some b, some c, some d =>
        match parseJStr r' with
        | some (cs, rest) =>
          some (Char.ofNat (((a * 16 + b) * 16 + c) * 16 + d) :: cs, rest)
        | none => none
      | _, _, _, _ => none
    | e :: r' =>
      match escChar e with
      | some c =>
        match parseJStr r' with
        | some (cs, rest) => some (c :: cs, rest)
        | none => none
      | none => none
    | [] => none
  | c :: r =>
    if c.toNat < 0x20 then none
    else
      match parseJStr r with
      | some (cs, rest) => some (c :: cs, rest)
      | none => none

/-- Integer part of a JSON number: `0` or a nonzero digit followed by digits. -/
def parseIntPart : Str → Option (Str × Str)
  | '0' :: r => some (['0'], r)
  | c :: r =>
    if c.isDigit then some (c :: r.takeWhile Char.isDigit, r.dropWhile Char.isDigit)
    else none
  | [] => none

/-- Optional fraction part of a JSON number. -/
def parseFrac (s : Str) : Option (Str × Str) :=
  match s with
  | '.' :: r =>
    let ds := r.takeWhile Char.isDigit
    if ds = [] then none else some ('.' :: ds, r.dropWhile Char.isDigit)
  | _ => some ([], s)

/-- Optional exponent part of a JSON number. -/
def parseExp (s : Str) : Option (Str × Str) :=
  match s with
  | e :: r =>
    if e = 'e' ∨ e = 'E' then
      let (sg, r1) : Str × Str :=
        match r with
        | '+' :: r' => (['+'], r')
        | '-' :: r' => (['-'], r')
        | _ => ([], r)
      let ds := r1.takeWhile Char.isDigit
      if ds = [] then none else some (e :: (sg ++ ds), r1.dropWhile Char.isDigit)
    else some ([], s)
  | [] => some ([], s)

/-- Lex a full JSON number, returning its raw lexeme and the rest. -/
def parseNum (s : Str) : Option (Str × Str) :=
  let (sg, s1) : Str × Str :=
    match s with
    | '-' :: r => (['-'], r)
    | _ => ([], s)
  match parseIntPart s1 with
  | none => none
  | some (ip, s2) =>
    match parseFrac s2 with
    | none => none
    | some (fp, s3) =>
      match parseExp s3 with
      | none => none
      | some (ep, s4) => some (sg ++ ip ++ fp ++ ep, s4)

mutual

/-- Fuelled recursive-descent model of `JSON.parse` for one value. -/
def parseJ : Nat → Str → Option (JVal × Str)
  | 0, _ => none
  | fuel + 1, s =>
    match skipJWs s with
    | 'n' :: 'u' :: 'l' :: 'l' :: r => some (.null, r)
    | 't' :: 'r' :: 'u' :: 'e' :: r => some (.bool true, r)
    | 'f' :: 'a' :: 'l' :: 's' :: 'e' :: r => some (.bool false, r)
    | '"' :: r =>
      match parseJStr r with
      | some (cs, rest) => some (.str cs, rest)
      | none => none
    | '[' :: r =>
      match skipJWs r with
      | ']' :: rest => some (.arr [], rest)
      | _ =>
        match parseItems fuel r with
        | some (vs, rest) => some (.arr vs, rest)
        | none => none
    | '\x7b' :: r =>
      match skipJWs r with
      | '\x7d' :: rest => some (.obj [], rest)
      | _ =>
        match parseMembers fuel r with
        | some (kvs, rest) => some (.obj kvs, rest)
        | none => none
    | c :: r =>
      if c = '-' ∨ c.isDigit then
        match parseNum (c :: r) with
        | some (raw, rest) => some (.num raw, rest)
        | none => none
      else none
    | [] => none

/-- Comma-separated array items followed by `]`. -/
def parseItems : Nat → Str → Option (List JVal × Str)
  | 0, _ => none
  | fuel + 1, s =>
    match parseJ fuel s with
    | none => none
    | some (v, r) =>
      match skipJWs r with
      | ',' :: r' =>
        match parseItems fuel r' with
        | some (vs, rest) => some (v :: vs, rest)
        | none => none
      | ']' :: rest => some ([v], rest)
      | _ => none

/-- Comma-separated object members followed by the closing brace. -/
def parseMembers : Nat → Str → Option (List (Str × JVal) × Str)
  | 0, _ => none
  | fuel + 1, s =>
    match skipJWs s with
    | '"' :: r =>
      match parseJStr r with
      | none => none
      | some (k, r1) =>
        match skipJWs r1 with
        | ':' :: r2 =>
          match parseJ fuel r2 with
          | none => none
          | some (v, r3) =>
            match skipJWs r3 with
            | ',' :: r4 =>
              match parseMembers fuel r4 with
              | some (kvs, rest) => some ((k, v) :: kvs, rest)
              | none => none
            | '\x7d' :: rest => some ([(k, v)], rest)
            | _ => none
        | _ => none
    | _ => none

end

/-- Model of `JSON.parse`: a whole-input parse of one JSON value. -/
def jparse (s : Str) : Option JVal :=
  match parseJ (2 * s.length + 4) s with
  | some (v, rest) => if skipJWs rest = [] then some v else none
  | none => none

/-- JS object property lookup on a parsed JSON object (`JSON.parse` keeps the
last binding for a duplicated key). -/
def jGet (fs : List (Str × JVal)) (k : Str) : Option JVal :=
  fs.foldl (fun acc kv => if kv.1 = k then some kv.2 else acc) none

/-- JS property access `x.k` on an arbitrary non-null value (undefined for
non-objects). -/
def jProp (k : Str) : JVal → Option JVal
  | .obj fs => jGet fs k
  | _ => none

/-- JS index access `x[0]` on an arbitrary non-null value. -/
def jIndex0 : JVal → Option JVal
  | .arr vs => vs.head?
  | .obj fs => jGet fs ['0']
  | .str (c :: _) => some (.str [c])
  | _ => none

/-- One step of JS optional chaining `x?.…`: short-circuit on nullish. -/
def optChain (f : JVal → Option JVal) : Option JVal → Option JVal
  | some .null => none
  | none => none
  | some v => f v

def sCHOICES : Str := "choices".toList
def sDELTA : Str := "delta".toList
def sCONTENT : Str := "content".toList

/-- Model of `parsed.choices?.[0]?.delta?.content`.  The unguarded first
access throws on `null` (`JSON.parse("null")`), modelled with `Except`. -/
def extractDelta : JVal → Except Unit (Option JVal)
  | .null => .error ()
  | v =>
    .ok (optChain (jProp sCONTENT)
          (optChain (jProp sDELTA)
            (optChain jIndex0 (jProp sCHOICES v))))

/-- Is a JSON number lexeme the number zero. -/
def numIsZero (raw : Str) : Bool :=
  (raw.takeWhile (fun c => ¬(c = 'e' ∨ c = 'E'))).all
    (fun c => c = '0' || c = '-' || c = '.')

/-- JS truthiness of a parsed JSON value (`if (delta)`). -/
def jTruthy : JVal → Bool
  | .null => false
  | .bool b => b
  | .num raw => !(numIsZero raw)
  | .str s => !s.isEmpty
  | .arr _ => true
  | .obj _ => true

/-- Outbound events written by the relay to the downstream SSE channel:
`chunk` is `data: {"chunk": …}`, `done` is the `event: done` / `data: [DONE]`
pair, `error` is `data: {"error": …}`. -/
inductive Event where
  | chunk : JVal → Event
  | done : Event
  | error : Str → Event

def sDATA : Str := "data: ".toList
def sDONE : Str := "[DONE]".toList
def sPOST : Str := "POST".toList
def sKEYMSG : Str := "OPENAI_API_KEY not set".toList
def sMNA : Str := "Method Not Allowed".toList

/-- What happens with the extracted delta: a throw during property access is
caught and the raw payload forwarded; a truthy delta is emitted as a chunk;
anything else emits nothing. -/
def deltaStep (data : Str) : Except Unit (Option JVal) → List Event × Bool
  | Except.error _ => ([Event.chunk (JVal.str data)], false)
  | Except.ok (some d) =>
    if jTruthy d then ([Event.chunk d], false) else ([], false)
  | Except.ok none => ([], false)

/-- Outcome of the `try { JSON.parse … } catch { raw forward }` block. -/
def jparseStep (data : Str) : Option JVal → List Event × Bool
  | none => ([Event.chunk (JVal.str data)], false)
  | some v => deltaStep data (extractDelta v)

/-- Processing of one extracted payload `data` (the trimmed regex capture):
sentinel check, then `JSON.parse` in a `try` whose `catch` forwards the raw
payload text as a chunk.  Returns the emitted events and whether the session
became terminal. -/
def handleData (data : Str) : List Event × Bool :=
  if data = sDONE then ([Event.done], true)
  else jparseStep data (jparse data)

/-- Processing of one part produced by the `"\n\n"` split: trim, skip empty,
match the unanchored regex `/data: ([\s\S]*)/`, trim the capture, handle. -/
def processPart (part : Str) : List Event × Bool :=
  if jsTrim part = [] then ([], false)
  else
    match findAfter sDATA (jsTrim part) with
    | none => ([], false)
    | some rest => handleData (jsTrim rest)

/-- Process the complete frames of one parse pass in order; on the sentinel
the handler returns, so frames after it are never processed. -/
def emitFrames : List Str → List Event × Bool
  | [] => ([], false)
  | p :: ps =>
    if (processPart p).2 then ((processPart p).1, true)
    else ((processPart p).1 ++ (emitFrames ps).1, (emitFrames ps).2)

/-- Per-session state of the read loop: the frame buffer, whether a terminal
event has been emitted (the handler returned), and the events written so
far. -/
structure RState where
  buf : Str
  term : Bool
  evs : List Event

/-- One iteration of the read loop on an already-decoded text chunk: append
to the buffer, split on `"\n\n"`, keep the leftover as the new buffer,
process the complete frames. -/
def feedOne (st : RState) (chunk : Str) : RState :=
  if st.term then st
  else
    ⟨lastP (splitNN (st.buf ++ chunk)),
     (emitFrames (initP (splitNN (st.buf ++ chunk)))).2,
     st.evs ++ (emitFrames (initP (splitNN (st.buf ++ chunk)))).1⟩

def feedAll (chunks : List Str) : RState :=
  chunks.foldl feedOne ⟨[], false, []⟩

/-- Events of a whole session over decoded text chunks, including the
synthesized `done` when the upstream closes without the sentinel. -/
def relayEvents (chunks : List Str) : List Event :=
  let st := feedAll chunks
  st.evs ++ (if st.term then [] else [Event.done])

/-- UTF-8 encoding of a scalar value. -/
def utf8EncodeChar (c : Nat) : List Nat :=
  if c < 0x80 then [c]
  else if c < 0x800 then [0xC0 + c / 0x40, 0x80 + c % 0x40]
  else if c < 0x10000 then
    [0xE0 + c / 0x1000, 0x80 + c / 0x40 % 0x40, 0x80 + c % 0x40]
  else
    [0xF0 + c / 0x40000, 0x80 + c / 0x1000 % 0x40, 0x80 + c / 0x40 % 0x40,
     0x80 + c % 0x40]

/-- Prepend a decoded scalar value to a decode result. -/
def consOut (v : Nat) (op : List Nat × List Nat) : List Nat × List Nat :=
  (v :: op.1, op.2)

/-- Lower bound of the first continuation byte of a three-byte sequence. -/
def u3lo (b : Nat) : Nat := if b = 0xE0 then 0xA0 else 0x80

/-- Upper bound (exclusive) of the first continuation byte of a three-byte
sequence. -/
def u3hi (b : Nat) : Nat := if b = 0xED then 0xA0 else 0xC0

/-- Lower bound of the first continuation byte of a four-byte sequence. -/
def u4lo (b : Nat) : Nat := if b = 0xF0 then 0x90 else 0x80

/-- Upper bound (exclusive) of the first continuation byte of a four-byte
sequence. -/
def u4hi (b : Nat) : Nat := if b = 0xF4 then 0x90 else 0xC0

/-- Streaming UTF-8 decode step (model of `TextDecoder("utf-8")` with
`stream: true`): decode as many scalar values as the bytes allow, keeping an
incomplete trailing sequence as carried state; invalid bytes become U+FFFD
without consuming a byte that could start a new sequence. -/
def utf8Run : List Nat → List Nat × List Nat
  | [] => ([], [])
  | b :: r =>
    if b < 0x80 then consOut b (utf8Run r)
    else if b < 0xC2 then consOut 0xFFFD (utf8Run r)
    else if b < 0xE0 then
      match r with
      | [] => ([], [b])
      | b1 :: r1 =>
        if 0x80 ≤ b1 ∧ b1 < 0xC0 then
          consOut ((b - 0xC0) * 0x40 + (b1 - 0x80)) (utf8Run r1)
        else consOut 0xFFFD (utf8Run (b1 :: r1))
    else if b < 0xF0 then
      match r with
      | [] => ([], [b])
      | b1 :: r1 =>
        if u3lo b ≤ b1 ∧ b1 < u3hi b then
          match r1 with
          | [] => ([], [b, b1])
          | b2 :: r2 =>
            if 0x80 ≤ b2 ∧ b2 < 0xC0 then
              consOut ((b - 0xE0) * 0x1000 + (b1 - 0x80) * 0x40 + (b2 - 0x80))
                (utf8Run r2)
            else consOut 0xFFFD (utf8Run (b2 :: r2))
        else consOut 0xFFFD (utf8Run (b1 :: r1))
    else if b < 0xF5 then
      match r with
      | [] => ([], [b])
      | b1 :: r1 =>
        if u4lo b ≤ b1 ∧ b1 < u4hi b then
          match r1 with
          | [] => ([], [b, b1])
          | b2 :: r2 =>
            if 0x80 ≤ b2 ∧ b2 < 0xC0 then
              match r2 with
              | [] => ([], [b, b1, b2])
              | b3 :: r3 =>
                if 0x80 ≤ b3 ∧ b3 < 0xC0 then
                  consOut ((b - 0xF0) * 0x40000 + (b1 - 0x80) * 0x1000 +
                    (b2 - 0x80) * 0x40 + (b3 - 0x80)) (utf8Run r3)
                else consOut 0xFFFD (utf8Run (b3 :: r3))
            else consOut 0xFFFD (utf8Run (b2 :: r2))
        else consOut 0xFFFD (utf8Run (b1 :: r1))
    else consOut 0xFFFD (utf8Run r)

/-- Decode a sequence of raw byte chunks into text chunks, carrying decoder
state across the reads (one `decoder.decode(value, { stream: true })` per
read). -/
def decodeChunks : List Nat → List (List Nat) → List Str
  | _, [] => []
  | pend, c :: cs =>
    let (cps, p') := utf8Run (pend ++ c)
    cps.map Char.ofNat :: decodeChunks p' cs

/-- Events of a whole session over raw upstream byte chunks. -/
def relayRunBytes (chunks : List (List Nat)) : List Event :=
  relayEvents (decodeChunks [] chunks)

/-- Result of one inbound request: the HTTP status, the SSE events written,
and whether an upstream connection was attempted. -/
structure HResult where
  status : Nat
  events : List Event
  contacted : Bool

/-- Outcome of the upstream `fetch`: `response.ok`, whether `response.body`
is non-null, the diagnostic text (`await response.text()`), and the byte
chunks the body's reader yields. -/
structure Upstream where
  ok : Bool
  hasBody : Bool
  text : Str
  chunks : List (List Nat)

/-- The session controller (`handler` in `stream.ts`), given the environment
(credential present or not), the request method, and the upstream fetch
outcome. -/
def handlerRun (keySet : Bool) (method : Str) (u : Upstream) : HResult :=
  if keySet = false then ⟨200, [Event.error sKEYMSG], false⟩
  else if method ≠ sPOST then ⟨405, [Event.error sMNA], false⟩
  else if u.ok = false ∨ u.hasBody = false then ⟨200, [Event.error u.text], true⟩
  else ⟨200, relayRunBytes u.chunks, true⟩

def sCHUNK : Str := "chunk".toList
def sEMPTYOBJ : Str := "\x7b\x7d".toList

/-- Client consumer state (`ConsultationForm` in `_app.tsx`): the append-only
display buffer, the loading flag, whether the connection was aborted. -/
structure CState where
  buf : Str
  loading : Bool
  aborted : Bool

/-- `typeof parsed.chunk === "string"` guard: append the chunk text when it
is a string, else do nothing. -/
def onmsgChunk (s : CState) : Option JVal → CState
  | some (JVal.str c) => { s with buf := s.buf ++ c }
  | _ => s

/-- Handling of a successfully parsed event payload: only an object with a
string `chunk` field changes the state. -/
def onmsgVal (s : CState) : JVal → CState
  | JVal.obj fs => onmsgChunk s (jGet fs sCHUNK)
  | _ => s

/-- The consumer's `onmessage` handler: `JSON.parse(ev.data || "{}")` in a
`try`; append `parsed.chunk` when it is a string; on parse failure append the
raw event data. -/
def onmessage (data : Str) (s : CState) : CState :=
  match jparse (if data = [] then sEMPTYOBJ else data) with
  | some v => onmsgVal s v
  | none => { s with buf := s.buf ++ data }

/-- The consumer's `onerror` handler: log, abort the connection, clear the
loading flag. -/
def onerror (s : CState) : CState :=
  { s with loading := false, aborted := true }

/-- Code-side payload extraction of one frame, as `stream.ts` implements it:
the unanchored regex on the trimmed part, capture trimmed. -/
def extractData (part : Str) : Option Str :=
  (findAfter sDATA (jsTrim part)).map jsTrim

def sDATAC : Str := "data:".toList

/-- Split a frame into its lines (for the spec-side reading of payload
extraction). -/
def splitLines : Str → List Str
  | [] => [[]]
  | '\n' :: r => [] :: splitLines r
  | c :: r =>
    match splitLines r with
    | [] => [[c]]
    | s :: ss => (c :: s) :: ss

/-- Spec-side payload extraction, following the claim's words: lines are
matched against a `"data:"` prefix and the trimmed remainder of the matched
line is the payload. -/
def dataPayloadSpec (part : Str) : Option Str :=
  (splitLines part).findSome? fun ln => (matchAt sDATAC ln).map jsTrim

theorem initP_cons (a : Str) (X : List Str) (h : X ≠ []) :
    initP (a :: X) = a :: initP X := by
  cases X with
  | nil => exact absurd rfl h
  | cons x xs => rfl

theorem lastP_cons (a : Str) (X : List Str) (h : X ≠ []) :
    lastP (a :: X) = lastP X := by
  cases X with
  | nil => exact absurd rfl h
  | cons x xs => rfl

theorem initP_append (A B : List Str) (h : B ≠ []) :
    initP (A ++ B) = A ++ initP B := by
  induction A with
  | nil => rfl
  | cons a A' ih =>
    rw [List.cons_append, initP_cons a (A' ++ B) (by simp [h]), ih,
      List.cons_append]

theorem lastP_append (A B : List Str) (h : B ≠ []) :
    lastP (A ++ B) = lastP B := by
  induction A with
  | nil => rfl
  | cons a A' ih =>
    rw [List.cons_append, lastP_cons a (A' ++ B) (by simp [h]), ih]

theorem handleData_shape (d : Str) :
    handleData d = ([], false) ∨ (∃ v, handleData d = ([Event.chunk v], false)) ∨
      handleData d = ([Event.done], true) := by
  unfold handleData
  by_cases hs : d = sDONE
  · rw [if_pos hs]
    right; right; rfl
  · rw [if_neg hs]
    rcases hj : jparse d with _ | v
    · rw [jparseStep]
      right; left; exact ⟨_, rfl⟩
    · rw [jparseStep]
      rcases he : extractDelta v with e | od
      · rw [deltaStep]
        right; left; exact ⟨_, rfl⟩
      · rcases od with _ | dv
        · rw [deltaStep]
          left; rfl
        · rw [deltaStep]
          by_cases ht : jTruthy dv = true
          · rw [if_pos ht]
            right; left; exact ⟨_, rfl⟩
          · rw [if_neg ht]
            left; rfl

theorem processPart_shape (p : Str) :
    processPart p = ([], false) ∨ (∃ v, processPart p = ([Event.chunk v], false)) ∨
      processPart p = ([Event.done], true) := by
  unfold processPart
  by_cases h : jsTrim p = []
  · rw [if_pos h]
    left; rfl
  · rw [if_neg h]
    match findAfter sDATA (jsTrim p) with
    | none => left; rfl
    | some rest => exact handleData_shape (jsTrim rest)

theorem processPart_term_done (p : Str) (h : (processPart p).2 = true) :
    (processPart p).1 = [Event.done] := by
  rcases processPart_shape p with h1 | ⟨v, h1⟩ | h1
  · rw [h1] at h
    simp at h
  · rw [h1] at h
    simp at h
  · rw [h1]

theorem emitFrames_append_term (A B : List Str) (h : (emitFrames A).2 = true) :
    emitFrames (A ++ B) = emitFrames A := by
  induction A with
  | nil => rw [emitFrames] at h; simp at h
  | cons p ps ih =>
    by_cases hp : (processPart p).2 = true
    · rw [List.cons_append, emitFrames, if_pos hp, emitFrames, if_pos hp]
    · rw [emitFrames, if_neg hp] at h
      have h' : (emitFrames ps).2 = true := h
      rw [List.cons_append, emitFrames, if_neg hp, emitFrames, if_neg hp, ih h']

theorem emitFrames_append_nonterm (A B : List Str) (h : (emitFrames A).2 = false) :
    emitFrames (A ++ B) =
      ((emitFrames A).1 ++ (emitFrames B).1, (emitFrames B).2) := by
  induction A with
  | nil =>
    show emitFrames B = _
    rw [emitFrames]
    simp
  | cons p ps ih =>
    by_cases hp : (processPart p).2 = true
    · rw [emitFrames, if_pos hp] at h
      simp at h
    · rw [emitFrames, if_neg hp] at h
      have h' : (emitFrames ps).2 = false := h
      rw [List.cons_append, emitFrames, if_neg hp, emitFrames, if_neg hp, ih h']
      simp [List.append_assoc]

/-- The frames completed by a prefix of decoded upstream text. -/
def framesOf (text : Str) : List Str := initP (splitNN text)

/-- Invariant of the read loop relating the session state to the decoded
text fed so far. -/
def RInv (st : RState) (text : Str) : Prop :=
  st.evs = (emitFrames (framesOf text)).1 ∧
  st.term = (emitFrames (framesOf text)).2 ∧
  (st.term = false → st.buf = lastP (splitNN text))

theorem feedOne_inv {st : RState} {text : Str} (chunk : Str)
    (h : RInv st text) : RInv (feedOne st chunk) (text ++ chunk) := by
  obtain ⟨h1, h2, h3⟩ := h
  have hSne : splitNN (lastP (splitNN text) ++ chunk) ≠ [] := splitNN_ne_nil _
  have hframes : framesOf (text ++ chunk) =
      framesOf text ++ initP (splitNN (lastP (splitNN text) ++ chunk)) := by
    unfold framesOf
    rw [splitNN_append, initP_append _ _ hSne]
  have hlast : lastP (splitNN (text ++ chunk)) =
      lastP (splitNN (lastP (splitNN text) ++ chunk)) := by
    rw [splitNN_append, lastP_append _ _ hSne]
  by_cases ht : st.term = true
  · have hterm : (emitFrames (framesOf text)).2 = true := by rw [← h2]; exact ht
    have hfeed : feedOne st chunk = st := by unfold feedOne; rw [if_pos ht]
    rw [hfeed]
    refine ⟨?_, ?_, ?_⟩
    · rw [h1, hframes, emitFrames_append_term _ _ hterm]
    · rw [h2, hframes, emitFrames_append_term _ _ hterm]
    · intro hf
      rw [ht] at hf
      exact absurd hf (by simp)
  · have ht' : st.term = false := by
      cases hb : st.term
      · rfl
      · exact absurd hb ht
    have hterm : (emitFrames (framesOf text)).2 = false := by rw [← h2]; exact ht'
    have hbuf : st.buf = lastP (splitNN text) := h3 ht'
    have hfeed : feedOne st chunk =
        ⟨lastP (splitNN (st.buf ++ chunk)),
         (emitFrames (initP (splitNN (st.buf ++ chunk)))).2,
         st.evs ++ (emitFrames (initP (splitNN (st.buf ++ chunk)))).1⟩ := by
      unfold feedOne
      rw [if_neg ht]
    rw [hfeed, hbuf]
    refine ⟨?_, ?_, ?_⟩
    · rw [h1, hframes, emitFrames_append_nonterm _ _ hterm]
    · rw [hframes, emitFrames_append_nonterm _ _ hterm]
    · intro _
      rw [hlast]

theorem foldl_feedOne_inv (cs : List Str) :
    ∀ (st : RState) (text : Str), RInv st text →
      RInv (List.foldl feedOne st cs) (text ++ cs.flatten) := by
  induction cs with
  | nil =>
    intro st text h
    simpa using h
  | cons c cs' ih =>
    intro st text h
    rw [List.foldl_cons, List.flatten_cons, ← List.append_assoc]
    exact ih _ _ (feedOne_inv c h)

theorem feedAll_inv (cs : List Str) : RInv (feedAll cs) cs.flatten := by
  have h0 : RInv ⟨[], false, []⟩ [] := ⟨rfl, rfl, fun _ => rfl⟩
  have := foldl_feedOne_inv cs ⟨[], false, []⟩ [] h0
  simpa [feedAll] using this

theorem relayEvents_characterized (cs : List Str) :
    relayEvents cs = (emitFrames (framesOf cs.flatten)).1 ++
      (if (emitFrames (framesOf cs.flatten)).2 then [] else [Event.done]) := by
  obtain ⟨h1, h2, _⟩ := feedAll_inv cs
  show (feedAll cs).evs ++ (if (feedAll cs).term then [] else [Event.done]) = _
  rw [h1, h2]

/-- Terminal outbound events (`done` and `error`). -/
def isTerminalEv : Event → Bool
  | Event.chunk _ => false
  | Event.done => true
  | Event.error _ => true

/-- A well-formed session trace: a terminal event may only occur as the very
last event. -/
def goodB : List Event → Bool
  | [] => true
  | [_] => true
  | e :: f :: rest => !isTerminalEv e && goodB (f :: rest)

theorem goodB_chunk_cons (v : JVal) (l : List Event) :
    goodB (Event.chunk v :: l) = goodB l := by
  cases l with
  | nil => rfl
  | cons f rest => simp [goodB, isTerminalEv]

theorem goodB_emit (fs : List Str) :
    goodB ((emitFrames fs).1 ++
      (if (emitFrames fs).2 then [] else [Event.done])) = true := by
  induction fs with
  | nil => rfl
  | cons p ps ih =>
    by_cases hp : (processPart p).2 = true
    · rw [emitFrames, if_pos hp]
      show goodB ((processPart p).1 ++ []) = true
      rw [processPart_term_done p hp]
      rfl
    · rw [emitFrames, if_neg hp]
      show goodB (((processPart p).1 ++ (emitFrames ps).1) ++
        (if (emitFrames ps).2 then [] else [Event.done])) = true
      rw [List.append_assoc]
      rcases processPart_shape p with h1 | ⟨v, h1⟩ | h1
      · have e1 : (processPart p).1 = [] := by rw [h1]
        rw [e1, List.nil_append]
        exact ih
      · have e1 : (processPart p).1 = [Event.chunk v] := by rw [h1]
        rw [e1]
        show goodB (Event.chunk v :: ((emitFrames ps).1 ++ _)) = true
        rw [goodB_chunk_cons]
        exact ih
      · rw [h1] at hp
        simp at hp

theorem relayEvents_good (cs : List Str) : goodB (relayEvents cs) = true := by
  rw [relayEvents_characterized]
  exact goodB_emit (framesOf cs.flatten)

theorem handlerRun_good (k : Bool) (m : Str) (u : Upstream) :
    goodB (handlerRun k m u).events = true := by
  unfold handlerRun
  by_cases hk : k = false
  · rw [if_pos hk]
    rfl
  · rw [if_neg hk]
    by_cases hm : m ≠ sPOST
    · rw [if_pos hm]
      rfl
    · rw [if_neg hm]
      by_cases hu : u.ok = false ∨ u.hasBody = false
      · rw [if_pos hu]
        rfl
      · rw [if_neg hu]
        exact relayEvents_good _

theorem matchAt_self_append (pat r : Str) : matchAt pat (pat ++ r) = some r := by
  induction pat with
  | nil => rfl
  | cons p ps ih =>
    rw [List.cons_append, matchAt, if_pos rfl]
    exact ih

theorem findAfter_first (pat : Str) (hne : pat ≠ []) :
    ∀ (pre rest : Str),
      (∀ i, i < pre.length →
        matchAt pat (List.drop i (pre ++ (pat ++ rest))) = none) →
      findAfter pat (pre ++ (pat ++ rest)) = some rest := by
  intro pre
  induction pre with
  | nil =>
    intro rest _
    rw [List.nil_append]
    match pat, hne with
    | q :: qs, _ =>
      rw [List.cons_append, findAfter, ← List.cons_append, matchAt_self_append]
  | cons a pre' ih =>
    intro rest h
    have h0 := h 0 (by simp)
    simp only [List.drop_zero, List.cons_append] at h0
    rw [List.cons_append, findAfter, h0]
    refine ih rest ?_
    intro i hi
    have := h (i + 1) (by simpa using Nat.succ_lt_succ hi)
    simpa only [List.cons_append, List.drop_succ_cons] using this

theorem findAfter_none_of_no_match (pat : Str) :
    ∀ (s : Str), (∀ i, matchAt pat (s.drop i) = none) → findAfter pat s = none := by
  intro s
  induction s with
  | nil =>
    intro h
    have h0 := h 0
    rw [List.drop_zero] at h0
    rw [findAfter]
    exact h0
  | cons c cs ih =>
    intro h
    have h0 := h 0
    rw [List.drop_zero] at h0
    rw [findAfter, h0]
    refine ih ?_
    intro i
    have := h (i + 1)
    simpa only [List.drop_succ_cons] using this

theorem utf8Run_single_lead (b0 : Nat) (h1 : 0xC2 ≤ b0) (h2 : b0 < 0xF5) :
    utf8Run [b0] = ([], [b0]) := by
  have n1 : ¬(b0 < 0x80) := by omega
  have n2 : ¬(b0 < 0xC2) := by omega
  by_cases hA : b0 < 0xE0
  · simp [utf8Run, n1, n2, hA]
  · by_cases hB : b0 < 0xF0
    · simp [utf8Run, n1, n2, hA, hB]
    · simp [utf8Run, n1, n2, hA, hB, h2]

theorem utf8Run_two (b0 b1 : Nat) (h1 : 0xC2 ≤ b0) (h2 : b0 < 0xE0)
    (hc : 0x80 ≤ b1 ∧ b1 < 0xC0) :
    utf8Run [b0, b1] = ([(b0 - 0xC0) * 0x40 + (b1 - 0x80)], []) := by
  have n1 : ¬(b0 < 0x80) := by omega
  have n2 : ¬(b0 < 0xC2) := by omega
  simp [utf8Run, consOut, n1, n2, h2, hc.1, hc.2]

theorem utf8Run_three_pend (b0 b1 : Nat) (h1 : 0xE0 ≤ b0) (h2 : b0 < 0xF0)
    (hc : u3lo b0 ≤ b1 ∧ b1 < u3hi b0) :
    utf8Run [b0, b1] = ([], [b0, b1]) := by
  have n1 : ¬(b0 < 0x80) := by omega
  have n2 : ¬(b0 < 0xC2) := by omega
  have n3 : ¬(b0 < 0xE0) := by omega
  simp [utf8Run, n1, n2, n3, h2, hc.1, hc.2]

theorem utf8Run_three (b0 b1 b2 : Nat) (h1 : 0xE0 ≤ b0) (h2 : b0 < 0xF0)
    (hc1 : u3lo b0 ≤ b1 ∧ b1 < u3hi b0) (hc2 : 0x80 ≤ b2 ∧ b2 < 0xC0) :
    utf8Run [b0, b1, b2] =
      ([(b0 - 0xE0) * 0x1000 + (b1 - 0x80) * 0x40 + (b2 - 0x80)], []) := by
  have n1 : ¬(b0 < 0x80) := by omega
  have n2 : ¬(b0 < 0xC2) := by omega
  have n3 : ¬(b0 < 0xE0) := by omega
  simp [utf8Run, consOut, n1, n2, n3, h2, hc1.1, hc1.2, hc2.1, hc2.2]

theorem utf8Run_four_pend1 (b0 b1 : Nat) (h1 : 0xF0 ≤ b0) (h2 : b0 < 0xF5)
    (hc : u4lo b0 ≤ b1 ∧ b1 < u4hi b0) :
    utf8Run [b0, b1] = ([], [b0, b1]) := by
  have n1 : ¬(b0 < 0x80) := by omega
  have n2 : ¬(b0 < 0xC2) := by omega
  have n3 : ¬(b0 < 0xE0) := by omega
  have n4 : ¬(b0 < 0xF0) := by omega
  simp [utf8Run, n1, n2, n3, n4, h2, hc.1, hc.2]

theorem utf8Run_four_pend2 (b0 b1 b2 : Nat) (h1 : 0xF0 ≤ b0) (h2 : b0 < 0xF5)
    (hc1 : u4lo b0 ≤ b1 ∧ b1 < u4hi b0) (hc2 : 0x80 ≤ b2 ∧ b2 < 0xC0) :
    utf8Run [b0, b1, b2] = ([], [b0, b1, b2]) := by
  have n1 : ¬(b0 < 0x80) := by omega
  have n2 : ¬(b0 < 0xC2) := by omega
  have n3 : ¬(b0 < 0xE0) := by omega
  have n4 : ¬(b0 < 0xF0) := by omega
  simp [utf8Run, n1, n2, n3, n4, h2, hc1.1, hc1.2, hc2.1, hc2.2]

theorem utf8Run_four (b0 b1 b2 b3 : Nat) (h1 : 0xF0 ≤ b0) (h2 : b0 < 0xF5)
    (hc1 : u4lo b0 ≤ b1 ∧ b1 < u4hi b0) (hc2 : 0x80 ≤ b2 ∧ b2 < 0xC0)
    (hc3 : 0x80 ≤ b3 ∧ b3 < 0xC0) :
    utf8Run [b0, b1, b2, b3] =
      ([(b0 - 0xF0) * 0x40000 + (b1 - 0x80) * 0x1000 + (b2 - 0x80) * 0x40 +
        (b3 - 0x80)], []) := by
  have n1 : ¬(b0 < 0x80) := by omega
  have n2 : ¬(b0 < 0xC2) := by omega
  have n3 : ¬(b0 < 0xE0) := by omega
  have n4 : ¬(b0 < 0xF0) := by omega
  simp [utf8Run, consOut, n1, n2, n3, n4, h2, hc1.1, hc1.2, hc2.1, hc2.2,
    hc3.1, hc3.2]

theorem enc_two (c : Nat) (h1 : 0x80 ≤ c) (h2 : c < 0x800) :
    utf8EncodeChar c = [0xC0 + c / 0x40, 0x80 + c % 0x40] := by
  unfold utf8EncodeChar
  rw [if_neg (by omega), if_pos h2]

theorem enc_three (c : Nat) (h1 : 0x800 ≤ c) (h2 : c < 0x10000) :
    utf8EncodeChar c =
      [0xE0 + c / 0x1000, 0x80 + c / 0x40 % 0x40, 0x80 + c % 0x40] := by
  unfold utf8EncodeChar
  rw [if_neg (by omega), if_neg (by omega), if_pos h2]

theorem enc_four (c : Nat) (h1 : 0x10000 ≤ c) :
    utf8EncodeChar c =
      [0xF0 + c / 0x40000, 0x80 + c / 0x1000 % 0x40, 0x80 + c / 0x40 % 0x40,
       0x80 + c % 0x40] := by
  unfold utf8EncodeChar
  rw [if_neg (by omega), if_neg (by omega), if_neg (by omega)]

theorem utf8_cond_three (c : Nat) (h1 : 0x800 ≤ c) (h2 : c < 0x10000)
    (h3 : ¬(0xD800 ≤ c ∧ c < 0xE000)) :
    u3lo (0xE0 + c / 0x1000) ≤ 0x80 + c / 0x40 % 0x40 ∧
      0x80 + c / 0x40 % 0x40 < u3hi (0xE0 + c / 0x1000) := by
  unfold u3lo u3hi
  constructor
  · split_ifs with hE
    · omega
    · omega
  · split_ifs with hD
    · omega
    · omega

theorem utf8_cond_four (c : Nat) (h1 : 0x10000 ≤ c) (h2 : c < 0x110000) :
    u4lo (0xF0 + c / 0x40000) ≤ 0x80 + c / 0x1000 % 0x40 ∧
      0x80 + c / 0x1000 % 0x40 < u4hi (0xF0 + c / 0x40000) := by
  unfold u4lo u4hi
  constructor
  · split_ifs with hF
    · omega
    · omega
  · split_ifs with hF
    · omega
    · omega

theorem utf8_enc_decode (c : Nat) (h1 : 0x80 ≤ c) (h2 : c < 0x110000)
    (h3 : ¬(0xD800 ≤ c ∧ c < 0xE000)) :
    utf8Run (utf8EncodeChar c) = ([c], []) := by
  by_cases hc2 : c < 0x800
  · rw [enc_two c h1 hc2,
      utf8Run_two _ _ (by omega) (by omega) ⟨by omega, by omega⟩]
    have hv : (0xC0 + c / 0x40 - 0xC0) * 0x40 + (0x80 + c % 0x40 - 0x80) = c := by
      omega
    rw [hv]
  · by_cases hc3 : c < 0x10000
    · rw [enc_three c (by omega) hc3,
        utf8Run_three _ _ _ (by omega) (by omega)
          (utf8_cond_three c (by omega) hc3 h3) ⟨by omega, by omega⟩]
      have hv : (0xE0 + c / 0x1000 - 0xE0) * 0x1000 +
          (0x80 + c / 0x40 % 0x40 - 0x80) * 0x40 + (0x80 + c % 0x40 - 0x80) = c := by
        omega
      rw [hv]
    · rw [enc_four c (by omega),
        utf8Run_four _ _ _ _ (by omega) (by omega)
          (utf8_cond_four c (by omega) h2) ⟨by omega, by omega⟩
          ⟨by omega, by omega⟩]
      have hv : (0xF0 + c / 0x40000 - 0xF0) * 0x40000 +
          (0x80 + c / 0x1000 % 0x40 - 0x80) * 0x1000 +
          (0x80 + c / 0x40 % 0x40 - 0x80) * 0x40 + (0x80 + c % 0x40 - 0x80) = c := by
        omega
      rw [hv]

theorem utf8_enc_take (c j : Nat) (h1 : 0x80 ≤ c) (h2 : c < 0x110000)
    (h3 : ¬(0xD800 ≤ c ∧ c < 0xE000)) (h4 : 0 < j)
    (h5 : j < (utf8EncodeChar c).length) :
    utf8Run ((utf8EncodeChar c).take j) = ([], (utf8EncodeChar c).take j) := by
  by_cases hc2 : c < 0x800
  · have he := enc_two c h1 hc2
    rw [he] at h5 ⊢
    have hj : j = 1 := by simp at h5; omega
    subst hj
    exact utf8Run_single_lead _ (by omega) (by omega)
  · by_cases hc3 : c < 0x10000
    · have he := enc_three c (by omega) hc3
      rw [he] at h5 ⊢
      have hj : j = 1 ∨ j = 2 := by simp at h5; omega
      rcases hj with hj | hj
      · subst hj
        exact utf8Run_single_lead _ (by omega) (by omega)
      · subst hj
        exact utf8Run_three_pend _ _ (by omega) (by omega)
          (utf8_cond_three c (by omega) hc3 h3)
    · have he := enc_four c (by omega)
      rw [he] at h5 ⊢
      have hj : j = 1 ∨ j = 2 ∨ j = 3 := by simp at h5; omega
      rcases hj with hj | hj | hj
      · subst hj
        exact utf8Run_single_lead _ (by omega) (by omega)
      · subst hj
        exact utf8Run_four_pend1 _ _ (by omega) (by omega)
          (utf8_cond_four c (by omega) h2)
      · subst hj
        exact utf8Run_four_pend2 _ _ _ (by omega) (by omega)
          (utf8_cond_four c (by omega) h2) ⟨by omega, by omega⟩

theorem splitNN_no_sep (r : Str) (h : hasNN r = false) : splitNN r = [r] := by
  match r with
  | [] => rfl
  | [c] => rfl
  | c :: d :: rest =>
    rw [hasNN] at h
    have hnn : ¬(c = '\n' ∧ d = '\n') := by
      intro hcd
      obtain ⟨hc, hd⟩ := hcd
      subst hc; subst hd
      simp at h
    have htail : hasNN (d :: rest) = false := by
      rcases Bool.or_eq_false_iff.mp h with ⟨_, h2⟩
      exact h2
    have ih := splitNN_no_sep (d :: rest) htail
    rw [splitNN, if_neg hnn, ih]

/-- One upstream SSE frame with content delta `"A"` (wire form, including the
blank-line separator). -/
def frameA : Str :=
  "data: \x7b\"choices\":[\x7b\"delta\":\x7b\"content\":\"A\"\x7d\x7d]\x7d\n\n".toList

/-- One upstream SSE frame with content delta `"B"`. -/
def frameB : Str :=
  "data: \x7b\"choices\":[\x7b\"delta\":\x7b\"content\":\"B\"\x7d\x7d]\x7d\n\n".toList

/-- The terminal sentinel frame (wire form). -/
def frameDone : Str := "data: [DONE]\n\n".toList

/-- The sentinel frame as a split part (no separator). -/
def partDone : Str := "data: [DONE]".toList

/-- A content frame as a split part. -/
def partA : Str :=
  "data: \x7b\"choices\":[\x7b\"delta\":\x7b\"content\":\"A\"\x7d\x7d]\x7d".toList

/-- ASCII text as upstream bytes. -/
def strBytes (s : Str) : List Nat := s.map Char.toNat

/-- C1: for an upstream byte stream whose frames carry the content deltas
"A" then "B" and then the terminal sentinel payload, the relay emits exactly
the outbound event sequence chunk("A"), chunk("B"), done — in that order,
each event exactly once, and no other events. -/
theorem c1_exact_event_sequence :
    handlerRun true sPOST
        ⟨true, true, [], [strBytes frameA, strBytes frameB, strBytes frameDone]⟩ =
      ⟨200,
       [Event.chunk (JVal.str ['A']), Event.chunk (JVal.str ['B']), Event.done],
       true⟩ := by
  rfl

/-- C2: splitting the same upstream text at any point into two raw chunks
and feeding them in order produces the same outbound event sequence as
feeding the unsplit text, and (unless the session already terminated) after
the parse passes the frame buffer holds exactly the decoded text after the
last complete-frame boundary — text that contains no frame separator. -/
theorem c2_split_invariance (s : Str) (i : Nat) :
    relayEvents [s.take i, s.drop i] = relayEvents [s] ∧
    ((feedAll [s.take i, s.drop i]).term = false →
      (feedAll [s.take i, s.drop i]).buf = lastP (splitNN s) ∧
      hasNN ((feedAll [s.take i, s.drop i]).buf) = false) := by
  have hflat : ([s.take i, s.drop i] : List Str).flatten = s := by
    simp [List.take_append_drop]
  have hflat1 : ([s] : List Str).flatten = s := by simp
  constructor
  · rw [relayEvents_characterized, relayEvents_characterized, hflat, hflat1]
  · intro ht
    obtain ⟨_, _, h3⟩ := feedAll_inv [s.take i, s.drop i]
    rw [hflat] at h3
    have hb := h3 ht
    exact ⟨hb, by rw [hb]; exact hasNN_lastP_splitNN s⟩

theorem c2_split_invariance_witness :
    relayEvents [frameA.take 10, frameA.drop 10] = relayEvents [frameA] ∧
    ((feedAll [frameA.take 10, frameA.drop 10]).term = false →
      (feedAll [frameA.take 10, frameA.drop 10]).buf = lastP (splitNN frameA) ∧
      hasNN ((feedAll [frameA.take 10, frameA.drop 10]).buf) = false) :=
  c2_split_invariance frameA 10

/-- C3: byte decoding carries state across successive reads: for every
multi-byte scalar value whose UTF-8 bytes are split at any point into two
chunks, feeding the first chunk leaves the bytes pending (no output), and
feeding the pending bytes with the second chunk decodes the original scalar
value exactly, with no error replacement and no leftover state. -/
theorem c3_decoder_stateful (c j : Nat) (h1 : 0x80 ≤ c) (h2 : c < 0x110000)
    (h3 : ¬(0xD800 ≤ c ∧ c < 0xE000)) (h4 : 0 < j)
    (h5 : j < (utf8EncodeChar c).length) :
    utf8Run ((utf8EncodeChar c).take j) = ([], (utf8EncodeChar c).take j) ∧
    utf8Run ((utf8Run ((utf8EncodeChar c).take j)).2 ++ (utf8EncodeChar c).drop j) =
      ([c], []) := by
  have hA := utf8_enc_take c j h1 h2 h3 h4 h5
  refine ⟨hA, ?_⟩
  rw [hA]
  show utf8Run ((utf8EncodeChar c).take j ++ (utf8EncodeChar c).drop j) = ([c], [])
  rw [List.take_append_drop]
  exact utf8_enc_decode c h1 h2 h3

theorem c3_decoder_stateful_witness :
    utf8Run ((utf8EncodeChar 0xE9).take 1) = ([], (utf8EncodeChar 0xE9).take 1) ∧
    utf8Run ((utf8Run ((utf8EncodeChar 0xE9).take 1)).2 ++ (utf8EncodeChar 0xE9).drop 1) =
      ([0xE9], []) :=
  c3_decoder_stateful 0xE9 1 (by decide) (by decide) (by decide) (by decide)
    (by decide)

/-- C4: a frame whose payload equals the terminal sentinel makes the session
emit `done` and become terminal — frames after it are never processed even
if complete — and, over every session the handler can run, at most one
terminal event (`done` or `error`) is emitted, with no outbound event after
it (`goodB`). -/
theorem c4_sentinel_terminal :
    (∀ (k : Bool) (m : Str) (u : Upstream),
      goodB (handlerRun k m u).events = true) ∧
    (∀ (A B : List Str), (emitFrames A).2 = false →
      emitFrames (A ++ partDone :: B) = ((emitFrames A).1 ++ [Event.done], true)) := by
  refine ⟨handlerRun_good, ?_⟩
  intro A B h
  rw [emitFrames_append_nonterm A (partDone :: B) h]
  have hp : (processPart partDone).2 = true := by rfl
  rw [emitFrames, if_pos hp]
  have hp1 : (processPart partDone).1 = [Event.done] := by rfl
  rw [hp1]

theorem c4_sentinel_terminal_witness :
    goodB (handlerRun true sPOST
      ⟨true, true, [], [strBytes (frameA ++ frameDone ++ frameB)]⟩).events = true ∧
    emitFrames ([partA] ++ partDone :: [partA]) =
      ((emitFrames [partA]).1 ++ [Event.done], true) :=
  ⟨c4_sentinel_terminal.1 true sPOST _,
   c4_sentinel_terminal.2 [partA] [partA] (by rfl)⟩

/-- C5: a payload that fails JSON parsing (and is not the sentinel) is
forwarded verbatim as a chunk event carrying the raw payload text, and the
session does not terminate. -/
theorem c5_raw_fallback (part data : Str) (h1 : extractData part = some data)
    (h2 : jparse data = none) (h3 : data ≠ sDONE) :
    processPart part = ([Event.chunk (JVal.str data)], false) := by
  unfold extractData at h1
  rcases Option.map_eq_some'.mp h1 with ⟨rest, hfa, hdata⟩
  unfold processPart
  by_cases hnil : jsTrim part = []
  · rw [hnil] at hfa
    rw [show findAfter sDATA ([] : Str) = none from rfl] at hfa
    exact Option.noConfusion hfa
  · rw [if_neg hnil, hfa]
    show handleData (jsTrim rest) = _
    rw [hdata]
    unfold handleData
    rw [if_neg h3, h2, jparseStep]

theorem c5_raw_fallback_witness :
    extractData "data: hello".toList = some "hello".toList ∧
    jparse "hello".toList = none ∧
    "hello".toList ≠ sDONE ∧
    processPart "data: hello".toList =
      ([Event.chunk (JVal.str "hello".toList)], false) :=
  ⟨rfl, rfl, by decide,
   c5_raw_fallback "data: hello".toList "hello".toList rfl rfl (by decide)⟩

/-- C6 counterexample: the claim says payload extraction matches lines
against a `"data:"` prefix and takes the trimmed remainder of the matched
line.  On the frame `"data:X"` (prefix without the space) the claim-side
extraction yields payload `"X"` while the code extracts nothing and emits
nothing; on `"xdata: hi"` no line has the prefix (the claim says emit
nothing) while the code matches `"data: "` mid-line and emits a chunk. -/
theorem c6_counterexample :
    dataPayloadSpec "data:X".toList = some ['X'] ∧
    extractData "data:X".toList = none ∧
    processPart "data:X".toList = ([], false) ∧
    dataPayloadSpec "xdata: hi".toList = none ∧
    processPart "xdata: hi".toList =
      ([Event.chunk (JVal.str "hi".toList)], false) :=
  ⟨rfl, rfl, rfl, rfl, rfl⟩

/-- C6 amended: payload extraction searches the trimmed frame text for the
first occurrence of the six-character pattern `"data: "` (colon and space)
anywhere — not as a per-line prefix — and takes everything after it
(trimmed, possibly spanning lines) as the payload; a frame whose trimmed
text has no occurrence of `"data: "` emits nothing. -/
theorem c6_amended_unanchored_extraction :
    (∀ (part pre rest : Str),
      jsTrim part = pre ++ (sDATA ++ rest) →
      (∀ i, i < pre.length →
        matchAt sDATA (List.drop i (pre ++ (sDATA ++ rest))) = none) →
      processPart part = handleData (jsTrim rest)) ∧
    (∀ part : Str,
      (∀ i, matchAt sDATA ((jsTrim part).drop i) = none) →
      processPart part = ([], false)) := by
  constructor
  · intro part pre rest htrim hfirst
    have hd6 : sDATA ≠ [] := by decide
    have hne2 : pre ++ (sDATA ++ rest) ≠ [] := by
      intro hC
      exact hd6 (List.append_eq_nil.mp (List.append_eq_nil.mp hC).2).1
    unfold processPart
    rw [if_neg (by rw [htrim]; exact hne2)]
    rw [htrim, findAfter_first sDATA hd6 pre rest hfirst]
  · intro part hnone
    unfold processPart
    by_cases hnil : jsTrim part = []
    · rw [if_pos hnil]
    · rw [if_neg hnil, findAfter_none_of_no_match sDATA (jsTrim part) hnone]

theorem c6_amended_unanchored_extraction_witness :
    processPart "data: hello".toList = handleData (jsTrim "hello".toList) ∧
    processPart "xyz".toList = ([], false) := by
  constructor
  · refine c6_amended_unanchored_extraction.1 "data: hello".toList []
      "hello".toList rfl ?_
    intro i hi
    simp at hi
  · refine c6_amended_unanchored_extraction.2 "xyz".toList ?_
    intro i
    match i with
    | 0 => rfl
    | 1 => rfl
    | 2 => rfl
    | n + 3 =>
      rw [show jsTrim "xyz".toList = "xyz".toList from rfl,
        List.drop_eq_nil_of_le (Nat.le_add_left 3 n)]
      rfl

/-- C7: with the credential configured, every request whose method is not
POST yields status 405 with a single method-not-allowed error event, and no
upstream connection attempt. -/
theorem c7_non_post_rejected (m : Str) (u : Upstream) (h : m ≠ sPOST) :
    handlerRun true m u = ⟨405, [Event.error sMNA], false⟩ := by
  unfold handlerRun
  rw [if_neg (by simp), if_pos h]

theorem c7_non_post_rejected_witness :
    "GET".toList ≠ sPOST ∧
    handlerRun true "GET".toList ⟨true, true, [], []⟩ =
      ⟨405, [Event.error sMNA], false⟩ :=
  ⟨by decide, c7_non_post_rejected "GET".toList ⟨true, true, [], []⟩ (by decide)⟩

/-- C8: when the upstream connection is not OK or has no readable body, the
relay emits exactly one error event carrying the upstream's diagnostic text
and ends the session, with no chunk and no done event. -/
theorem c8_upstream_failure (u : Upstream)
    (h : u.ok = false ∨ u.hasBody = false) :
    handlerRun true sPOST u = ⟨200, [Event.error u.text], true⟩ := by
  unfold handlerRun
  rw [if_neg (by simp), if_neg (by simp), if_pos h]

theorem c8_upstream_failure_witness :
    ((⟨false, true, "upstream 500".toList, []⟩ : Upstream).ok = false ∨
      (⟨false, true, "upstream 500".toList, []⟩ : Upstream).hasBody = false) ∧
    handlerRun true sPOST ⟨false, true, "upstream 500".toList, []⟩ =
      ⟨200, [Event.error "upstream 500".toList], true⟩ :=
  ⟨Or.inl rfl,
   c8_upstream_failure ⟨false, true, "upstream 500".toList, []⟩ (Or.inl rfl)⟩

/-- C9 counterexample: the claim says that on an error event the consumer
surfaces the message and marks the operation failed.  Feeding the error
event payload `{"error":"boom"}` to the consumer's message handler leaves
the state completely unchanged: the message reaches neither the display
buffer nor the loading flag. -/
theorem c9_counterexample :
    onmessage "\x7b\"error\":\"boom\"\x7d".toList ⟨[], true, false⟩ =
      ⟨[], true, false⟩ :=
  rfl

/-- C9 amended: the consumer's message handler ignores error events — any
event data that parses as JSON without a string-valued `chunk` field leaves
the consumer state unchanged, so the error message is not surfaced and the
operation is not marked failed there; only the transport-level error
callback reacts, by aborting the connection and clearing the loading flag
without displaying any message. -/
theorem c9_amended_error_event_ignored :
    (∀ (data : Str) (v : JVal) (s : CState), data ≠ [] →
      jparse data = some v →
      (∀ fs c, v = JVal.obj fs → jGet fs sCHUNK ≠ some (JVal.str c)) →
      onmessage data s = s) ∧
    (∀ s : CState, onerror s = { s with loading := false, aborted := true }) := by
  constructor
  · intro data v s hne hj h
    unfold onmessage
    rw [if_neg hne, hj]
    show onmsgVal s v = s
    cases v with
    | null => rfl
    | bool b => rfl
    | num raw => rfl
    | str t => rfl
    | arr vs => rfl
    | obj fs =>
      show onmsgChunk s (jGet fs sCHUNK) = s
      rcases hg : jGet fs sCHUNK with _ | w
      · rfl
      · cases w with
        | str c => exact absurd hg (h fs c rfl)
        | null => rfl
        | bool b => rfl
        | num raw => rfl
        | arr vs => rfl
        | obj fs2 => rfl
  · intro s
    rfl

theorem c9_amended_error_event_ignored_witness :
    onmessage "\x7b\"error\":\"boom\"\x7d".toList ⟨['x'], true, false⟩ =
      ⟨['x'], true, false⟩ ∧
    onerror ⟨['x'], true, false⟩ = ⟨['x'], false, true⟩ :=
  ⟨c9_amended_error_event_ignored.1 "\x7b\"error\":\"boom\"\x7d".toList
      (JVal.obj [("error".toList, JVal.str "boom".toList)]) ⟨['x'], true, false⟩
      (by decide) rfl
      (fun fs c hv hg => by
        injection hv with h'
        subst h'
        exact Option.noConfusion hg),
   c9_amended_error_event_ignored.2 ⟨['x'], true, false⟩⟩

/-- C10: the outbound events of a session are a function of the complete
frames alone — residual buffered text after the last blank-line boundary is
silently discarded, never emitted as a chunk — and a close whose entire
buffered text never reached a frame boundary emits only the synthesized
`done`. -/
theorem c10_residual_discarded :
    (∀ chunks : List Str,
      relayEvents chunks = (emitFrames (framesOf chunks.flatten)).1 ++
        (if (emitFrames (framesOf chunks.flatten)).2 then [] else [Event.done])) ∧
    (∀ r : Str, hasNN r = false → relayEvents [r] = [Event.done]) := by
  constructor
  · exact relayEvents_characterized
  · intro r h
    rw [relayEvents_characterized]
    have hflat : ([r] : List Str).flatten = r := by simp
    rw [hflat]
    unfold framesOf
    rw [splitNN_no_sep r h]
    rfl

theorem c10_residual_discarded_witness :
    relayEvents [frameA, "data: partial".toList] =
      (emitFrames (framesOf ([frameA, "data: partial".toList] : List Str).flatten)).1 ++
        (if (emitFrames (framesOf ([frameA, "data: partial".toList] : List Str).flatten)).2
          then [] else [Event.done]) ∧
    relayEvents ["data: partial".toList] = [Event.done] :=
  ⟨c10_residual_discarded.1 [frameA, "data: partial".toList],
   c10_residual_discarded.2 "data: partial".toList rfl⟩

end Relay
